import Mathlib

/-!
YunFS core: shallow embedding and verification

This file embeds the core of the YunFS in-memory virtual filesystem in Lean 4
and proves (or refutes) the specification claims about it.  The embedding
covers four layers of the C sources:

* `src/security/chacha20.c` — the ChaCha20 stream cipher (machine words are
  `Nat` reduced mod `2^32`, bytes are `Nat` below 256);
* `src/security/sanitize.c` and `src/filesystem/path.c` — the path-security
  string layer (`resolve_dot_dot`, `is_path_traversal`, `normalize_path`,
  `path_get_dirname`, `path_get_basename`), with C strings as `List Char`;
* `src/filesystem/vfs_persist.c` — the binary serialization codec
  (byte buffers are `List Nat`, fallible reads return `Option`);
* `src/filesystem/vfs.c` — the pointer-based node tree, embedded as a heap:
  nodes are records addressed by numeric ids in an association list, with
  `parent`/`children`/`next` pointers as `Option Nat`, so that pointer-level
  behaviour (including aliasing during `vfs_move_node`) is preserved.

`time(NULL)` is nondeterministic in C; every operation that stamps a time
receives the current time as an explicit `now : Nat` argument instead.
C undefined behaviour (modulo by zero, out-of-bounds reads) is made explicit:
the embedding returns `none` / a dedicated error value exactly where the C
computation is undefined, with a comment at each such place.
-/

/- ========================================================================
   Part 1 — ChaCha20 stream cipher (src/security/chacha20.c)
   ======================================================================== -/

namespace YunFS

/-- 2^32, the modulus of C `uint32_t` arithmetic. -/
def U32 : Nat := 4294967296

/-- `uint32_t` addition: `a + b` reduced mod 2^32. -/
def add32 (a b : Nat) : Nat := (a + b) % U32

/-- 32-bit rotate left: `(x << n) | (x >> (32 - n))` on a `uint32_t`
(from `rotl32` in chacha20.c). -/
def rotl32 (x n : Nat) : Nat := ((x <<< n) % U32) ||| (x >>> (32 - n))

/-- The 16-word ChaCha20 state (the C `uint32_t state[16]`). -/
structure ChaState where
  a0 : Nat
  a1 : Nat
  a2 : Nat
  a3 : Nat
  a4 : Nat
  a5 : Nat
  a6 : Nat
  a7 : Nat
  a8 : Nat
  a9 : Nat
  a10 : Nat
  a11 : Nat
  a12 : Nat
  a13 : Nat
  a14 : Nat
  a15 : Nat

/-- ChaCha20 quarter round (from `quarter_round` in chacha20.c):
the add / xor / rotate sequence on four state words. -/
def quarter_round (a b c d : Nat) : Nat × Nat × Nat × Nat :=
  let a := add32 a b; let d := rotl32 (d ^^^ a) 16
  let c := add32 c d; let b := rotl32 (b ^^^ c) 12
  let a := add32 a b; let d := rotl32 (d ^^^ a) 8
  let c := add32 c d; let b := rotl32 (b ^^^ c) 7
  (a, b, c, d)

/-- One double round: the four column mixes followed by the four diagonal
mixes (the body of the `for` loop in `chacha20_block`). -/
def double_round (s : ChaState) : ChaState :=
  let (a0, a4, a8, a12) := quarter_round s.a0 s.a4 s.a8 s.a12
  let (a1, a5, a9, a13) := quarter_round s.a1 s.a5 s.a9 s.a13
  let (a2, a6, a10, a14) := quarter_round s.a2 s.a6 s.a10 s.a14
  let (a3, a7, a11, a15) := quarter_round s.a3 s.a7 s.a11 s.a15
  let (b0, b5, b10, b15) := quarter_round a0 a5 a10 a15
  let (b1, b6, b11, b12) := quarter_round a1 a6 a11 a12
  let (b2, b7, b8, b13) := quarter_round a2 a7 a8 a13
  let (b3, b4, b9, b14) := quarter_round a3 a4 a9 a14
  ⟨b0, b1, b2, b3, b4, b5, b6, b7, b8, b9, b10, b11, b12, b13, b14, b15⟩

/-- Ten double rounds (20 rounds), the loop in `chacha20_block`. -/
def rounds10 (s : ChaState) : ChaState :=
  double_round (double_round (double_round (double_round (double_round
    (double_round (double_round (double_round (double_round (double_round s)))))))))

/-- `output[i] = working_state[i] + state[i]` on `uint32_t`
(end of `chacha20_block`). -/
def addState (w s : ChaState) : ChaState :=
  ⟨add32 w.a0 s.a0, add32 w.a1 s.a1, add32 w.a2 s.a2, add32 w.a3 s.a3,
   add32 w.a4 s.a4, add32 w.a5 s.a5, add32 w.a6 s.a6, add32 w.a7 s.a7,
   add32 w.a8 s.a8, add32 w.a9 s.a9, add32 w.a10 s.a10, add32 w.a11 s.a11,
   add32 w.a12 s.a12, add32 w.a13 s.a13, add32 w.a14 s.a14, add32 w.a15 s.a15⟩

/-- Counter increment after each block: `state[12]++`, with carry into
`state[13]` when the `uint32_t` counter wraps to zero. -/
def bumpCounter (s : ChaState) : ChaState :=
  let c := (s.a12 + 1) % U32
  if c = 0 then { s with a12 := c, a13 := (s.a13 + 1) % U32 }
  else { s with a12 := c }

/-- The 64-byte keystream block produced from one output state: the
little-endian byte serialization of the 16 words, exactly as the C cast
`((uint8_t *)keystream)[block_pos]` reads them on a little-endian machine. -/
def word_bytes (w : Nat) : List Nat :=
  [w % 256, w / 256 % 256, w / 65536 % 256, w / 16777216 % 256]

/-- All 64 keystream bytes of one block output. -/
def block_bytes (o : ChaState) : List Nat :=
  word_bytes o.a0 ++ word_bytes o.a1 ++ word_bytes o.a2 ++ word_bytes o.a3 ++
  word_bytes o.a4 ++ word_bytes o.a5 ++ word_bytes o.a6 ++ word_bytes o.a7 ++
  word_bytes o.a8 ++ word_bytes o.a9 ++ word_bytes o.a10 ++ word_bytes o.a11 ++
  word_bytes o.a12 ++ word_bytes o.a13 ++ word_bytes o.a14 ++ word_bytes o.a15

/-- `load32_le`: read a 32-bit word little-endian from a byte buffer
(out-of-range indices default to 0; callers pass buffers of sufficient
length, which the theorems require explicitly). -/
def load32 (l : List Nat) (off : Nat) : Nat :=
  (l.getD off 0) ||| ((l.getD (off + 1) 0) <<< 8) |||
  ((l.getD (off + 2) 0) <<< 16) ||| ((l.getD (off + 3) 0) <<< 24)

/-- `chacha20_init`: constants, 8 key words, counter, 3 nonce words. -/
def chacha20_init (key nonce : List Nat) (counter : Nat) : ChaState :=
  ⟨0x61707865, 0x3320646e, 0x79622d32, 0x6b206574,
   load32 key 0, load32 key 4, load32 key 8, load32 key 12,
   load32 key 16, load32 key 20, load32 key 24, load32 key 28,
   counter,
   load32 nonce 0, load32 nonce 4, load32 nonce 8⟩

/-- `chacha20_encrypt`: generate a 64-byte keystream block, XOR it onto the
next (up to) 64 input bytes, and continue with the incremented counter.
The XOR is on `uint8_t` values; for bytes the result is again a byte. -/
def chacha20_encrypt (s : ChaState) : List Nat → List Nat
  | [] => []
  | x :: rest =>
    let ks := block_bytes (addState (rounds10 s) s)
    (List.zipWith (fun a b => a ^^^ b) ((x :: rest).take 64) ks) ++
      chacha20_encrypt (bumpCounter s) ((x :: rest).drop 64)
  termination_by l => l.length
  decreasing_by simp [List.length_drop]; omega

/-- 8-bit rotate left by one: `(k << 1) | (k >> 7)` on `uint8_t`
(second loop of `chacha20_derive_key`). -/
def rotl8 (a : Nat) : Nat := ((a <<< 1) % 256) ||| (a >>> 7)

/-- First loop of `chacha20_derive_key`:
`key[i] = (uint8_t)(key_str[i % key_len] ^ (i * 7))` for `i < 32`.
Only meaningful for a non-empty password (`i % key_len` is modulo by zero
otherwise); `chacha20_derive_key` guards that case. -/
def derive_stage1 (ks : List Nat) : List Nat :=
  (List.range 32).map fun i => ((ks.getD (i % ks.length) 0) ^^^ (i * 7)) % 256

/-- Second loop of `chacha20_derive_key`: in-place, for `i = 0..31`,
`key[i] = rotl8(key[i] ^ key[(i+1) % 32])` (the read of `key[(i+1) % 32]`
sees the already-updated prefix, as in C). -/
def derive_stage2 (key : List Nat) : List Nat :=
  (List.range 32).foldl
    (fun acc i => acc.set i (rotl8 ((acc.getD i 0) ^^^ (acc.getD ((i + 1) % 32) 0))))
    key

/-- `chacha20_derive_key`.  For the empty password the C expression
`key_str[i % key_len]` divides by zero (`key_len == 0`), which is undefined
behaviour; the embedding returns `none` exactly in that case. -/
def chacha20_derive_key (ks : List Nat) : Option (List Nat) :=
  if ks.isEmpty then none
  else some (derive_stage2 (derive_stage1 ks))

/-- `chacha20_encrypt_with_key`: derive the key from the password string,
initialise the state with block counter 0, and encrypt/decrypt. -/
def chacha20_encrypt_with_key (ks nonce input : List Nat) : Option (List Nat) :=
  (chacha20_derive_key ks).map fun key =>
    chacha20_encrypt (chacha20_init key nonce 0) input

/- ------------------------------------------------------------------
   Cipher lemmas
   ------------------------------------------------------------------ -/

theorem block_bytes_length (o : ChaState) : (block_bytes o).length = 64 := by
  simp [block_bytes, word_bytes]

theorem zipXor_zipXor (l ks : List Nat) (h : l.length ≤ ks.length) :
    List.zipWith (fun a b => a ^^^ b)
      (List.zipWith (fun a b => a ^^^ b) l ks) ks = l := by
  induction l generalizing ks with
  | nil => simp
  | cons x xs ih =>
    cases ks with
    | nil => simp at h
    | cons k kt =>
      simp only [List.zipWith_cons_cons]
      rw [Nat.xor_assoc, Nat.xor_self, Nat.xor_zero, ih kt (by simpa using h)]

/-- Unfolding lemma: one block step of `chacha20_encrypt` on a non-empty
input. -/
theorem chacha20_encrypt_cons (s : ChaState) (l : List Nat) (h : l ≠ []) :
    chacha20_encrypt s l =
      (List.zipWith (fun a b => a ^^^ b) (l.take 64)
        (block_bytes (addState (rounds10 s) s))) ++
      chacha20_encrypt (bumpCounter s) (l.drop 64) := by
  match l with
  | [] => exact absurd rfl h
  | x :: rest => rw [chacha20_encrypt]

theorem chacha20_encrypt_nil (s : ChaState) : chacha20_encrypt s [] = [] := by
  rw [chacha20_encrypt]

/-- Applying the same keystream twice gives back the input. -/
theorem chacha20_encrypt_involutive_aux :
    ∀ (n : Nat) (s : ChaState) (l : List Nat), l.length ≤ n →
      chacha20_encrypt s (chacha20_encrypt s l) = l := by
  intro n
  induction n with
  | zero =>
    intro s l h
    have hl : l = [] := List.length_eq_zero.mp (Nat.le_zero.mp h)
    subst hl
    simp [chacha20_encrypt_nil]
  | succ n ih =>
    intro s l h
    by_cases hl : l = []
    · subst hl; simp [chacha20_encrypt_nil]
    · set ks := block_bytes (addState (rounds10 s) s) with hks
      have hkslen : ks.length = 64 := block_bytes_length _
      set A := List.zipWith (fun a b => a ^^^ b) (l.take 64) ks with hA
      have hAlen : A.length = min l.length 64 := by
        simp [hA, hkslen]
        omega
      have hAne : A ≠ [] := by
        intro hnil
        have h0 : A.length = 0 := by rw [hnil]; rfl
        have hlpos : l.length ≠ 0 := fun hz => hl (List.length_eq_zero.mp hz)
        omega
      rw [chacha20_encrypt_cons s l hl]
      by_cases hsz : l.length ≤ 64
      · have hdrop : l.drop 64 = [] := List.drop_eq_nil_of_le hsz
        have htake : l.take 64 = l := List.take_of_length_le hsz
        rw [hdrop, chacha20_encrypt_nil, List.append_nil]
        rw [chacha20_encrypt_cons s A hAne]
        have hAle : A.length ≤ 64 := by omega
        rw [List.take_of_length_le hAle, List.drop_eq_nil_of_le hAle,
          chacha20_encrypt_nil, List.append_nil]
        rw [hA, htake]
        exact zipXor_zipXor l ks (by omega)
      · have hAlen64 : A.length = 64 := by omega
        set B := chacha20_encrypt (bumpCounter s) (l.drop 64) with hB
        have hABne : A ++ B ≠ [] := by
          intro hnil
          exact hAne (List.append_eq_nil.mp hnil).1
        rw [chacha20_encrypt_cons s (A ++ B) hABne]
        have htakeAB : (A ++ B).take 64 = A := by
          rw [← hAlen64, List.take_left]
        have hdropAB : (A ++ B).drop 64 = B := by
          rw [← hAlen64, List.drop_left]
        rw [htakeAB, hdropAB]
        have h1 : List.zipWith (fun a b => a ^^^ b) A ks = l.take 64 := by
          rw [hA]
          exact zipXor_zipXor (l.take 64) ks (by simp [hkslen])
        have h2 : chacha20_encrypt (bumpCounter s) B = l.drop 64 := by
          rw [hB]
          apply ih
          simp only [List.length_drop]
          omega
        rw [h1, h2, List.take_append_drop]

theorem chacha20_encrypt_involutive (s : ChaState) (l : List Nat) :
    chacha20_encrypt s (chacha20_encrypt s l) = l :=
  chacha20_encrypt_involutive_aux l.length s l (Nat.le_refl _)

/-- C7: for every non-empty password, every 12-byte nonce and every byte
buffer, `chacha20_encrypt_with_key` applied twice is the identity: both runs
derive the same key, initialise the block counter to 0 and XOR the same
keystream. -/
theorem c7_encrypt_with_key_involutive (ks nonce input : List Nat)
    (hks : ks ≠ []) (_hnonce : nonce.length = 12) :
    (chacha20_encrypt_with_key ks nonce input).bind
      (fun c => chacha20_encrypt_with_key ks nonce c) = some input := by
  have hne : ks.isEmpty = false := by
    cases ks with
    | nil => exact absurd rfl hks
    | cons a t => rfl
  simp only [chacha20_encrypt_with_key, chacha20_derive_key, hne, if_neg Bool.false_ne_true,
    Option.map_some, Option.bind_some]
  simp [chacha20_encrypt_involutive]

/-- Witness for C7 at a concrete password, nonce and buffer. -/
theorem c7_encrypt_with_key_involutive_witness :
    ([107] : List Nat) ≠ [] ∧ (List.replicate 12 0 : List Nat).length = 12 ∧
    (chacha20_encrypt_with_key [107] (List.replicate 12 0) [1, 2, 3]).bind
      (fun c => chacha20_encrypt_with_key [107] (List.replicate 12 0) c) = some [1, 2, 3] :=
  ⟨by decide, by decide,
    c7_encrypt_with_key_involutive [107] (List.replicate 12 0) [1, 2, 3]
      (by decide) (by decide)⟩

/- ------------------------------------------------------------------
   Key-derivation lemmas (C9)
   ------------------------------------------------------------------ -/

theorem getD_lt_256 (l : List Nat) (i : Nat) (h : ∀ b ∈ l, b < 256) :
    l.getD i 0 < 256 := by
  induction l generalizing i with
  | nil => simp [List.getD]
  | cons a t ih =>
    cases i with
    | zero => exact h a (by simp)
    | succ j =>
      simp only [List.getD_cons_succ]
      exact ih j (fun b hb => h b (by simp [hb]))

theorem rotl8_lt_256 (a : Nat) (h : a < 256) : rotl8 a < 256 := by
  have h1 : (a <<< 1) % 256 < 256 := Nat.mod_lt _ (by norm_num)
  have h2 : a >>> 7 < 256 := by
    rw [Nat.shiftRight_eq_div_pow]
    omega
  have := Nat.or_lt_two_pow (n := 8) (by simpa using h1) (by simpa using h2)
  simpa using this

theorem derive_stage1_length (ks : List Nat) : (derive_stage1 ks).length = 32 := by
  simp [derive_stage1]

theorem derive_stage1_lt (ks : List Nat) : ∀ b ∈ derive_stage1 ks, b < 256 := by
  intro b hb
  simp only [derive_stage1, List.mem_map] at hb
  obtain ⟨i, _, rfl⟩ := hb
  exact Nat.mod_lt _ (by norm_num)

theorem derive_stage2_foldl_invariant (is : List Nat) :
    ∀ (acc : List Nat), (∀ b ∈ acc, b < 256) →
      ((is.foldl
        (fun acc i => acc.set i (rotl8 ((acc.getD i 0) ^^^ (acc.getD ((i + 1) % 32) 0))))
        acc).length = acc.length ∧
       ∀ b ∈ is.foldl
        (fun acc i => acc.set i (rotl8 ((acc.getD i 0) ^^^ (acc.getD ((i + 1) % 32) 0))))
        acc, b < 256) := by
  induction is with
  | nil => intro acc h; exact ⟨rfl, h⟩
  | cons i it ih =>
    intro acc h
    have hx : (acc.getD i 0) ^^^ (acc.getD ((i + 1) % 32) 0) < 256 := by
      have := Nat.xor_lt_two_pow (n := 8) (by simpa using getD_lt_256 acc i h)
        (by simpa using getD_lt_256 acc ((i + 1) % 32) h)
      simpa using this
    have hset : ∀ b ∈ acc.set i (rotl8 ((acc.getD i 0) ^^^ (acc.getD ((i + 1) % 32) 0))),
        b < 256 := by
      intro b hb
      rcases List.mem_or_eq_of_mem_set hb with hmem | rfl
      · exact h b hmem
      · exact rotl8_lt_256 _ hx
    have := ih _ hset
    simp only [List.foldl_cons]
    exact ⟨by rw [this.1, List.length_set], this.2⟩

theorem derive_stage2_length (key : List Nat) (h : ∀ b ∈ key, b < 256) :
    (derive_stage2 key).length = key.length :=
  (derive_stage2_foldl_invariant (List.range 32) key h).1

theorem derive_stage2_lt (key : List Nat) (h : ∀ b ∈ key, b < 256) :
    ∀ b ∈ derive_stage2 key, b < 256 :=
  (derive_stage2_foldl_invariant (List.range 32) key h).2

/-- C9 (amended): for every non-empty password string the key derivation is
well-defined and produces a 32-byte key, every byte below 256.  (The original
claim also covered the empty password, which the counterexample refutes.) -/
theorem c9_derive_key_defined (ks : List Nat) (h : ks ≠ []) :
    ∃ k, chacha20_derive_key ks = some k ∧ k.length = 32 ∧ ∀ b ∈ k, b < 256 := by
  have hne : ks.isEmpty = false := by
    cases ks with
    | nil => exact absurd rfl h
    | cons a t => rfl
  refine ⟨derive_stage2 (derive_stage1 ks), ?_, ?_, ?_⟩
  · simp [chacha20_derive_key, hne]
  · rw [derive_stage2_length _ (derive_stage1_lt ks), derive_stage1_length]
  · exact derive_stage2_lt _ (derive_stage1_lt ks)

/-- Witness for C9 at the one-byte password `"a"` (byte 97). -/
theorem c9_derive_key_defined_witness :
    (([97] : List Nat) ≠ []) ∧
    (∃ k, chacha20_derive_key [97] = some k ∧ k.length = 32 ∧ ∀ b ∈ k, b < 256) :=
  ⟨by decide, c9_derive_key_defined [97] (by decide)⟩

/-- C9 counterexample: on the empty password the C loop evaluates
`key_str[i % key_len]` with `key_len == 0`; modulo by zero is undefined
behaviour, so the key derivation is not well-defined there — the embedding
returns `none` for exactly this input, refuting the claim that the
derivation is defined for passwords of arbitrary length including the empty
string. -/
theorem c9_empty_password_undefined : chacha20_derive_key [] = none := rfl

/- ========================================================================
   Part 2 — Persistence codec (src/filesystem/vfs_persist.c)

   Byte buffers are `List Nat` (each entry a byte).  The C code writes raw
   `uint32_t` / `size_t` / `time_t` values with pointer casts on a
   little-endian machine; the embedding spells those out as little-endian
   byte sequences (`enc32`/`enc64`).  The deserializer works on the
   not-yet-consumed suffix of the buffer: the C guard
   `*offset + k > buffer_size` is exactly the guard `buf.length < k` on the
   suffix.
   ======================================================================== -/

/-- Little-endian encoding of a 4-byte word (`*(uint32_t *)` store). -/
def enc32 (n : Nat) : List Nat :=
  [n % 256, n / 256 % 256, n / 65536 % 256, n / 16777216 % 256]

/-- Little-endian encoding of an 8-byte word (`size_t` / `time_t` store). -/
def enc64 (n : Nat) : List Nat :=
  [n % 256, n / 256 % 256, n / 65536 % 256, n / 16777216 % 256,
   n / 4294967296 % 256, n / 1099511627776 % 256,
   n / 281474976710656 % 256, n / 72057594037927936 % 256]

/-- Little-endian decoding of a 4-byte word (`*(uint32_t *)` load). -/
def dec32 (l : List Nat) : Nat :=
  l.getD 0 0 + 256 * l.getD 1 0 + 65536 * l.getD 2 0 + 16777216 * l.getD 3 0

/-- Little-endian decoding of an 8-byte word (`size_t` / `time_t` load). -/
def dec64 (l : List Nat) : Nat :=
  l.getD 0 0 + 256 * l.getD 1 0 + 65536 * l.getD 2 0 + 16777216 * l.getD 3 0 +
  4294967296 * l.getD 4 0 + 1099511627776 * l.getD 5 0 +
  281474976710656 * l.getD 6 0 + 72057594037927936 * l.getD 7 0

/-- Checked 4-byte read: the C guard `*offset + 4 > buffer_size` followed by
the load, on the remaining buffer. -/
def readW32 (buf : List Nat) : Option (Nat × List Nat) :=
  if buf.length < 4 then none else some (dec32 (buf.take 4), buf.drop 4)

/-- Checked 8-byte read. -/
def readW64 (buf : List Nat) : Option (Nat × List Nat) :=
  if buf.length < 8 then none else some (dec64 (buf.take 8), buf.drop 8)

/-- Checked `n`-byte read (name and file-content `memcpy`s). -/
def readBytes (n : Nat) (buf : List Nat) : Option (List Nat × List Nat) :=
  if buf.length < n then none else some (buf.take n, buf.drop n)

/-- The in-memory node tree as the codec sees it: `name` is the byte string
(no NUL), `size` is the raw `size` field of the C node, `data` the content
buffer (empty list for a NULL pointer), `mtime`/`ctime` raw timestamps. -/
inductive VNode where
  | vfile (name : List Nat) (size : Nat) (data : List Nat) (mtime ctime : Nat)
  | vdir (name : List Nat) (size : Nat) (mtime ctime : Nat) (children : List VNode)

mutual

/-- `serialize_node`: type tag (`type + 1`, reserving 0 for the NULL
sentinel), name length, NUL-terminated name, size, mtime, ctime, then the
content bytes (`node->size` of them, only when the data pointer is non-NULL
and the size positive) for a file, or child count and the serialized
children in sibling order for a directory.  The C bounds checks never fire
because the caller sizes the buffer with `calculate_serialized_size`
(see `serialize_node_length`). -/
def serialize_node : VNode → List Nat
  | .vfile name size data mtime ctime =>
    enc32 1 ++ enc32 name.length ++ name ++ [0] ++ enc64 size ++
      enc64 mtime ++ enc64 ctime ++
      (if data = [] ∨ size = 0 then [] else data.take size)
  | .vdir name size mtime ctime children =>
    enc32 2 ++ enc32 name.length ++ name ++ [0] ++ enc64 size ++
      enc64 mtime ++ enc64 ctime ++
      enc32 children.length ++ serialize_children children

/-- The serialized children of a directory, in order. -/
def serialize_children : List VNode → List Nat
  | [] => []
  | c :: cs => serialize_node c ++ serialize_children cs

end

mutual

/-- `calculate_serialized_size`: the size-accounting pass mirroring every
field `serialize_node` emits. -/
def calculate_serialized_size : VNode → Nat
  | .vfile name size data _ _ =>
    4 + 4 + (name.length + 1) + 8 + 16 + (if data = [] ∨ size = 0 then 0 else size)
  | .vdir name _ _ _ children =>
    4 + 4 + (name.length + 1) + 8 + 16 + 4 + calc_size_children children

/-- Sum of the childrens' serialized sizes. -/
def calc_size_children : List VNode → Nat
  | [] => 0
  | c :: cs => calculate_serialized_size c + calc_size_children cs

end

mutual

/-- Well-formedness of a node as the C tree operations maintain it: the
name-length, size, timestamp and child-count fields fit their machine
widths, and a file's `size` equals the length of its content buffer
(`vfs_create_file` and `vfs_write_file` establish exactly this). -/
def wfNode : VNode → Bool
  | .vfile name size data mtime ctime =>
    decide (name.length < 4294967296) && decide (size = data.length) &&
    decide (size < 18446744073709551616) &&
    decide (mtime < 18446744073709551616) && decide (ctime < 18446744073709551616)
  | .vdir name size mtime ctime children =>
    decide (name.length < 4294967296) && decide (size < 18446744073709551616) &&
    decide (mtime < 18446744073709551616) && decide (ctime < 18446744073709551616) &&
    decide (children.length < 4294967296) && wfChildren children

/-- Well-formedness of a child list. -/
def wfChildren : List VNode → Bool
  | [] => true
  | c :: cs => wfNode c && wfChildren cs

end

mutual

/-- Nesting depth of a node; `deserialize_node` needs fuel exceeding it. -/
def depthNode : VNode → Nat
  | .vfile _ _ _ _ _ => 1
  | .vdir _ _ _ _ children => 1 + depthChildren children

/-- Maximal depth over a child list. -/
def depthChildren : List VNode → Nat
  | [] => 0
  | c :: cs => max (depthNode c) (depthChildren cs)

end

mutual

/-- `deserialize_node`: the matching depth-first read.  Every field access
is preceded by a remaining-size check (the `readW32`/`readW64`/`readBytes`
guards).  A zero type marker is the NULL sentinel, which every caller
treats as failure; a marker above `VFS_DIR + 1` is an invalid type.  The
C recursion terminates because the offset strictly advances; the embedding
makes that explicit with a fuel argument that decreases at each nesting
level (fuel larger than the nesting depth never alters the result). -/
def deserialize_node : Nat → List Nat → Option (VNode × List Nat)
  | 0, _ => none
  | fuel + 1, buf =>
    match readW32 buf with
    | none => none
    | some (tag, buf1) =>
      if tag = 0 then none
      else if tag - 1 > 1 then none
      else
        match readW32 buf1 with
        | none => none
        | some (name_len, buf2) =>
          match readBytes (name_len + 1) buf2 with
          | none => none
          | some (nameBytes, buf3) =>
            match readW64 buf3 with
            | none => none
            | some (size, buf4) =>
              match readW64 buf4 with
              | none => none
              | some (mtime, buf5) =>
                match readW64 buf5 with
                | none => none
                | some (ctime, buf6) =>
                  if tag = 1 then
                    if 0 < size then
                      match readBytes size buf6 with
                      | none => none
                      | some (data, buf7) =>
                        some (.vfile (nameBytes.take name_len) size data mtime ctime, buf7)
                    else
                      some (.vfile (nameBytes.take name_len) size [] mtime ctime, buf6)
                  else
                    match readW32 buf6 with
                    | none => none
                    | some (cnt, buf7) =>
                      match deserialize_children fuel cnt buf7 with
                      | none => none
                      | some (children, buf8) =>
                        some (.vdir (nameBytes.take name_len) size mtime ctime children, buf8)
  termination_by fuel _ => (fuel, 0)

/-- The child-reading loop of `deserialize_node`: `cnt` recursive reads,
failing (and discarding everything) if any child fails. -/
def deserialize_children : Nat → Nat → List Nat → Option (List VNode × List Nat)
  | _, 0, buf => some ([], buf)
  | fuel, cnt + 1, buf =>
    match deserialize_node fuel buf with
    | none => none
    | some (c, buf1) =>
      match deserialize_children fuel cnt buf1 with
      | none => none
      | some (cs, buf2) => some (c :: cs, buf2)
  termination_by fuel cnt _ => (fuel, cnt)

end

/- ------------------------------------------------------------------
   Codec lemmas
   ------------------------------------------------------------------ -/

theorem readW32_enc32 (n : Nat) (rest : List Nat) (h : n < 4294967296) :
    readW32 (enc32 n ++ rest) = some (n, rest) := by
  simp [readW32, enc32, dec32, List.getD]
  omega

theorem readW64_enc64 (n : Nat) (rest : List Nat) (h : n < 18446744073709551616) :
    readW64 (enc64 n ++ rest) = some (n, rest) := by
  simp [readW64, enc64, dec64, List.getD]
  omega

theorem readBytes_exact (l rest : List Nat) :
    readBytes l.length (l ++ rest) = some (l, rest) := by
  have hlen : ¬ (l ++ rest).length < l.length := by
    simp only [List.length_append]
    omega
  rw [readBytes, if_neg hlen, List.take_left, List.drop_left]

theorem readBytes_name (name rest : List Nat) :
    readBytes (name.length + 1) (name ++ 0 :: rest) = some (name ++ [0], rest) := by
  have h : name ++ 0 :: rest = (name ++ [0]) ++ rest := by simp
  rw [h]
  have := readBytes_exact (name ++ [0]) rest
  simpa using this

theorem take_name (name : List Nat) : (name ++ [0]).take name.length = name :=
  List.take_left name [0]

mutual

/-- Round-trip at the node level: deserializing a serialized well-formed
node from the front of any buffer yields the node back and consumes exactly
its record. -/
theorem deserialize_serialize (t : VNode) (rest : List Nat) (fuel : Nat)
    (hw : wfNode t = true) (hf : depthNode t ≤ fuel) :
    deserialize_node fuel (serialize_node t ++ rest) = some (t, rest) := by
  cases fuel with
  | zero => cases t <;> (simp only [depthNode] at hf; omega)
  | succ fuel =>
    cases t with
    | vfile name size data mtime ctime =>
      simp only [wfNode, Bool.and_eq_true, decide_eq_true_eq] at hw
      obtain ⟨⟨⟨⟨h1, h2⟩, h3⟩, h4⟩, h5⟩ := hw
      subst h2
      by_cases hd : data = []
      · subst hd
        simp [deserialize_node, serialize_node, List.append_assoc,
          readW32_enc32 1 _ (by norm_num), readW32_enc32 _ _ h1,
          readBytes_name, readW64_enc64 0 _ (by norm_num), readW64_enc64 _ _ h4,
          readW64_enc64 _ _ h5, take_name]
      · have hlen : 0 < data.length := List.length_pos.mpr hd
        simp [deserialize_node, serialize_node, List.append_assoc, hd,
          readW32_enc32 1 _ (by norm_num), readW32_enc32 _ _ h1,
          readBytes_name, readW64_enc64 _ _ h3, readW64_enc64 _ _ h4,
          readW64_enc64 _ _ h5, take_name, hlen, List.take_length,
          readBytes_exact]
    | vdir name size mtime ctime children =>
      simp only [wfNode, Bool.and_eq_true, decide_eq_true_eq] at hw
      obtain ⟨⟨⟨⟨⟨h1, h2⟩, h3⟩, h4⟩, h5⟩, h6⟩ := hw
      have hfc : depthChildren children ≤ fuel := by
        simp only [depthNode] at hf
        omega
      have hrec := deserialize_serialize_children children rest fuel h6 hfc
      simp [deserialize_node, serialize_node, List.append_assoc,
        readW32_enc32 2 _ (by norm_num), readW32_enc32 _ _ h1,
        readBytes_name, readW64_enc64 _ _ h2, readW64_enc64 _ _ h3,
        readW64_enc64 _ _ h4, readW32_enc32 _ _ h5, take_name, hrec]

/-- Round-trip for a child list read by `deserialize_children`. -/
theorem deserialize_serialize_children (cs : List VNode) (rest : List Nat) (fuel : Nat)
    (hw : wfChildren cs = true) (hf : depthChildren cs ≤ fuel) :
    deserialize_children fuel cs.length (serialize_children cs ++ rest) = some (cs, rest) := by
  cases cs with
  | nil => simp [deserialize_children, serialize_children]
  | cons c cs =>
    simp only [wfChildren, Bool.and_eq_true] at hw
    simp only [depthChildren] at hf
    have h1 := deserialize_serialize c (serialize_children cs ++ rest) fuel hw.1
      (by omega)
    have h2 := deserialize_serialize_children cs rest fuel hw.2 (by omega)
    simp [deserialize_children, serialize_children, List.append_assoc, h1, h2]

end

mutual

/-- The write pass emits exactly the bytes the size-accounting pass
reserves: the truncation guards in the C `serialize_node` never fire when
the buffer is allocated from `calculate_serialized_size`, which justifies
embedding the serializer without them. -/
theorem serialize_node_length (t : VNode) (hw : wfNode t = true) :
    (serialize_node t).length = calculate_serialized_size t := by
  cases t with
  | vfile name size data mtime ctime =>
    simp only [wfNode, Bool.and_eq_true, decide_eq_true_eq] at hw
    obtain ⟨⟨⟨⟨h1, h2⟩, h3⟩, h4⟩, h5⟩ := hw
    subst h2
    by_cases hd : data = []
    · subst hd
      simp [serialize_node, calculate_serialized_size, enc32, enc64]
      omega
    · simp [serialize_node, calculate_serialized_size, enc32, enc64, hd]
      omega
  | vdir name size mtime ctime children =>
    simp only [wfNode, Bool.and_eq_true, decide_eq_true_eq] at hw
    obtain ⟨⟨⟨⟨⟨h1, h2⟩, h3⟩, h4⟩, h5⟩, h6⟩ := hw
    have hrec := serialize_children_length children h6
    simp [serialize_node, calculate_serialized_size, enc32, enc64, hrec]
    omega

/-- Size accounting for a child list. -/
theorem serialize_children_length (cs : List VNode) (hw : wfChildren cs = true) :
    (serialize_children cs).length = calc_size_children cs := by
  cases cs with
  | nil => rfl
  | cons c cs =>
    simp only [wfChildren, Bool.and_eq_true] at hw
    have h1 := serialize_node_length c hw.1
    have h2 := serialize_children_length cs hw.2
    simp [serialize_children, calc_size_children, h1, h2]

end

/-- C2: for every well-formed tree (well-formedness is exactly what
building the tree through `vfs_create_file` / `vfs_create_dir` guarantees:
a file's `size` equals its content length and all fields fit their machine
widths), deserializing the output of `serialize_node` reconstructs an equal
tree — same name, kind, size, content bytes, timestamps, and the same
children in the same order — consuming the whole buffer.  `fuel` is the
embedding's explicit termination bound; any value above the tree's nesting
depth (the C recursion depth) works. -/
theorem c2_roundtrip (t : VNode) (fuel : Nat) (hw : wfNode t = true)
    (hf : depthNode t ≤ fuel) :
    deserialize_node fuel (serialize_node t) = some (t, []) := by
  have := deserialize_serialize t [] fuel hw hf
  simpa using this

/-- Witness for C2: a directory `/` holding the file `a.txt` with content
"hi" and a nested empty directory round-trips. -/
theorem c2_roundtrip_witness :
    wfNode (.vdir [47] 2 11 12
      [.vfile [97, 46, 116, 120, 116] 2 [104, 105] 13 14,
       .vdir [100] 0 15 16 []]) = true ∧
    depthNode (.vdir [47] 2 11 12
      [.vfile [97, 46, 116, 120, 116] 2 [104, 105] 13 14,
       .vdir [100] 0 15 16 []]) ≤ 3 ∧
    deserialize_node 3 (serialize_node (.vdir [47] 2 11 12
      [.vfile [97, 46, 116, 120, 116] 2 [104, 105] 13 14,
       .vdir [100] 0 15 16 []])) =
      some (.vdir [47] 2 11 12
        [.vfile [97, 46, 116, 120, 116] 2 [104, 105] 13 14,
         .vdir [100] 0 15 16 []], []) :=
  ⟨by decide, by decide,
    c2_roundtrip _ 3 (by decide) (by decide)⟩

/- ------------------------------------------------------------------
   Encrypted save / load (vfs_save_encrypted / vfs_load_encrypted)
   ------------------------------------------------------------------ -/

/-- The 8-byte file magic `"YUNVFS01"`. -/
def VFS_MAGIC : List Nat := [89, 85, 78, 86, 70, 83, 48, 49]

/-- The constant nonce: the first 12 bytes of `"yunhongisbest"` copied into
`uint8_t nonce[12]` by both save and load. -/
def VFS_NONCE : List Nat := [121, 117, 110, 104, 111, 110, 103, 105, 115, 98, 101, 115]

/-- Failure modes of the decrypted-buffer part of `vfs_load_encrypted`.
`oobRead` marks the places where the C code accesses the buffer without a
bounds check. -/
inductive LoadErr where
  | oobRead
  | badMagic
  | badVersion
  | nodeParse
deriving DecidableEq

/-- The header-check-and-deserialize tail of `vfs_load_encrypted`, applied
to the decrypted buffer.

The magic comparison is `memcmp(decrypted, VFS_MAGIC, 8)` with **no** check
that the buffer holds 8 bytes, and the version is read with
`*(uint32_t *)(decrypted + 8)` with no check that it holds 12: for shorter
buffers the C code reads past the end of the allocation, which the
embedding reports as `LoadErr.oobRead`.  All later field reads go through
the checked `deserialize_node`. -/
def vfs_load_decrypted (buf : List Nat) : Except LoadErr VNode :=
  if buf.length < 8 then .error .oobRead
  else if buf.take 8 ≠ VFS_MAGIC then .error .badMagic
  else if buf.length < 12 then .error .oobRead
  else if dec32 ((buf.drop 8).take 4) ≠ 1 then .error .badVersion
  else
    match deserialize_node (buf.length + 1) (buf.drop 12) with
    | some (t, _) => .ok t
    | none => .error .nodeParse

/-- The in-memory `vfs_t` as the functional persistence pipeline sees it. -/
structure FVfs where
  root : VNode
  total_nodes : Nat
  total_size : Nat

/-- `vfs_init`: a fresh VFS whose root is a directory named `"/"` (byte 47)
with no children, both timestamps set to the creation time, and counters
`total_nodes = 1`, `total_size = 0`. -/
def vfs_init_f (now : Nat) : FVfs :=
  ⟨.vdir [47] 0 now now [], 1, 0⟩

/-- `vfs_load_encrypted`, with the on-disk file contents passed as
`Option (List Nat)`: `none` means `fopen` failed (e.g. the file does not
exist).  The file layout is `[8-byte size_t length][length ciphertext
bytes]`; the ciphertext is decrypted with the password-derived key and the
constant nonce, and the decrypted buffer is handed to
`vfs_load_decrypted`.  After a successful load the counters are reset to
`total_nodes = 1`, `total_size = 0` (the C comment calls this a simplified
implementation). -/
def vfs_load_encrypted (file : Option (List Nat)) (key : List Nat) (now : Nat) :
    Option FVfs :=
  match file with
  | none => some (vfs_init_f now)
  | some bytes =>
    if bytes.length < 8 then none
    else
      let esz := dec64 (bytes.take 8)
      if (bytes.drop 8).length < esz then none
      else
        match chacha20_encrypt_with_key key VFS_NONCE ((bytes.drop 8).take esz) with
        | none => none
        | some decrypted =>
          match vfs_load_decrypted decrypted with
          | .ok t => some ⟨t, 1, 0⟩
          | .error _ => none

/-- C10: whenever the persisted file cannot be opened for reading,
`vfs_load_encrypted` returns a freshly initialized empty VFS — a root
directory named `"/"` with no children, `total_nodes = 1`,
`total_size = 0` — instead of an error, for every key and load time. -/
theorem c10_missing_file_fresh_vfs (key : List Nat) (now : Nat) :
    vfs_load_encrypted none key now = some (vfs_init_f now) ∧
    vfs_init_f now = ⟨.vdir [47] 0 now now [], 1, 0⟩ :=
  ⟨rfl, rfl⟩

/-- C3 evidence: the magic and version header reads of the load path are
*not* preceded by a buffer-size check.  On an empty decrypted buffer the
`memcmp` against the magic reads 8 bytes past the end, and on an exactly
8-byte buffer that happens to equal the magic the version read fetches 4
bytes past the end — the claim that every field read, including the header
reads, is bounds-checked is false. -/
theorem c3_header_reads_unchecked :
    vfs_load_decrypted [] = .error .oobRead ∧
    vfs_load_decrypted VFS_MAGIC = .error .oobRead := by
  constructor <;> rfl

/- ========================================================================
   Part 3 — Path security layer (src/security/sanitize.c, src/filesystem/path.c)

   C strings are `List Char` (no interior NULs in any input of interest).
   ======================================================================== -/

/-- Tokenize a path into its `/`-separated non-empty components: the
component scan of `resolve_dot_dot` (and, equivalently, `strtok` with
separator `/` in `split_path`).  `cur` accumulates the characters of the
current component in reverse. -/
def splitCompsAux : List Char → List Char → List (List Char)
  | [], cur => if cur = [] then [] else [cur.reverse]
  | c :: rest, cur =>
    if c = '/' then
      if cur = [] then splitCompsAux rest []
      else cur.reverse :: splitCompsAux rest []
    else splitCompsAux rest (c :: cur)

/-- The components of a path. -/
def splitComps (l : List Char) : List (List Char) := splitCompsAux l []

/-- The component stack pass of `resolve_dot_dot`: `.` is dropped; `..`
pops the previous component if there is one (whatever it is), is kept on a
relative path with an empty stack, and is silently dropped on an absolute
path with an empty stack.  `acc` holds the stack with its top in front;
the final result is the stack bottom-first. -/
def processComps (isAbs : Bool) : List (List Char) → List (List Char) → List (List Char)
  | acc, [] => acc.reverse
  | acc, c :: cs =>
    if c = ['.'] then processComps isAbs acc cs
    else if c = ['.', '.'] then
      match acc with
      | _ :: accTail => processComps isAbs accTail cs
      | [] => if isAbs then processComps isAbs [] cs else processComps isAbs [c] cs
    else processComps isAbs (c :: acc) cs

/-- The output-construction loop of `resolve_dot_dot`: a separator is
written before component `i` when `i > 0 || is_absolute`; `sep0` says
whether the first component gets one. -/
def buildComps (sep0 : Bool) : List (List Char) → List Char
  | [] => []
  | c :: cs => (if sep0 then ['/'] else []) ++ c ++ buildComps true cs

/-- `resolve_dot_dot`: split, process `.` and `..`, rebuild (an absolute
path gets its leading slash back, and then another separator before the
first component — the C code really produces `//a/b` for `/a/b`). -/
def resolve_dot_dot (p : List Char) : List Char :=
  let isAbs : Bool := decide (p.head? = some '/')
  (if isAbs then ['/'] else []) ++ buildComps isAbs (processComps isAbs [] (splitComps p))

/-- `strncmp(resolved, "../", 3) == 0`. -/
def startsDotDotSlash (l : List Char) : Bool := decide (l.take 3 = ['.', '.', '/'])

/-- `strstr(resolved, "../") != NULL`. -/
def containsDotDotSlash : List Char → Bool
  | [] => false
  | a :: rest => startsDotDotSlash (a :: rest) || containsDotDotSlash rest

/-- The trailing-`..` check of `is_path_traversal`:
`len >= 2 && r[len-2] == '.' && r[len-1] == '.' && (len == 2 || r[len-3] == '/')`. -/
def endsDotDot (l : List Char) : Bool :=
  match l.reverse with
  | '.' :: '.' :: rest => rest.isEmpty || decide (rest.head? = some '/')
  | _ => false

/-- `is_path_traversal`: resolve `.`/`..`, then flag the path when the
resolved string starts with `../`, contains `../`, ends in a `..`
component, or when an absolute input resolved to a non-absolute string.
(The `resolved == NULL` branch is a malloc failure, not modelled.) -/
def is_path_traversal (p : List Char) : Bool :=
  let resolved := resolve_dot_dot p
  startsDotDotSlash resolved || containsDotDotSlash resolved || endsDotDot resolved ||
    (decide (p.head? = some '/') && decide (resolved.head? ≠ some '/'))

/-- `validate_path_length(path, MAX_PATH_LEN)`: at most 4096 characters. -/
def validate_path_length (p : List Char) : Bool := decide (p.length ≤ 4096)

/-- The duplicate-slash-collapsing loop of `normalize_path`;
the boolean is `last_was_slash`. -/
def removeDupSlashes : Bool → List Char → List Char
  | _, [] => []
  | lastSlash, c :: rest =>
    if c = '/' then
      if lastSlash then removeDupSlashes true rest
      else '/' :: removeDupSlashes true rest
    else c :: removeDupSlashes false rest

/-- Strip a single trailing slash except from `"/"` itself
(`if (j > 1 && normalized[j-1] == '/')`). -/
def dropTrailingSlash (l : List Char) : List Char :=
  if 1 < l.length ∧ l.getLast? = some '/' then l.dropLast else l

/-- `normalize_path`: refuse traversal and over-long paths, collapse
duplicate slashes, strip one trailing slash. -/
def normalize_path (p : List Char) : Option (List Char) :=
  if is_path_traversal p then none
  else if ¬ validate_path_length p then none
  else some (dropTrailingSlash (removeDupSlashes false p))

/-- `path_get_basename`: the part after the last `/`; `"."` for the empty
path or a path without slashes is itself, `"/"` for a path ending in `/`. -/
def path_get_basename (p : List Char) : List Char :=
  if p = [] then ['.']
  else if '/' ∉ p then p
  else
    let suffix := (p.reverse.takeWhile (· ≠ '/')).reverse
    if suffix = [] then ['/'] else suffix

/-- `path_get_dirname`: everything before the last `/`; `"."` when there is
no slash, `"/"` when the only slash is the leading one. -/
def path_get_dirname (p : List Char) : List Char :=
  if p = [] then ['.']
  else if '/' ∉ p then ['.']
  else
    let sufLen := (p.reverse.takeWhile (· ≠ '/')).length
    let idx := p.length - sufLen - 1
    if idx = 0 then ['/'] else p.take idx

/- ------------------------------------------------------------------
   Claim-side predicates for C8
   ------------------------------------------------------------------ -/

/-- The path contains a `..` component. -/
def hasDotDotComponent (p : List Char) : Bool :=
  (splitComps p).any (fun c => decide (c = ['.', '.']))

/-- A component whose last two characters are `..` (this includes the
component `..` itself). -/
def compEndsDotDot (c : List Char) : Bool := decide (c.reverse.take 2 = ['.', '.'])

/-- Proper symbolic `.`/`..` resolution, following the specification's
words: `..` cancels a preceding real component, while a `..` that has
nothing real to cancel is kept.  (Unlike the code's `resolve_dot_dot`,
a kept `..` is never cancelled by a later `..`.)  Used only to state what
the spec means by a resolution that climbs above the root. -/
def specResolveStack : List (List Char) → List (List Char) → List (List Char)
  | acc, [] => acc.reverse
  | acc, c :: cs =>
    if c = ['.'] then specResolveStack acc cs
    else if c = ['.', '.'] then
      match acc with
      | [] => specResolveStack [c] cs
      | top :: accTail =>
        if top = ['.', '.'] then specResolveStack (c :: top :: accTail) cs
        else specResolveStack accTail cs
    else specResolveStack (c :: acc) cs

/-- The spec's "symbolic resolution climbs above the root boundary": on a
relative path, an uncancellable `..` survives at the front of the properly
resolved component list. -/
def specClimbsAboveRoot (p : List Char) : Bool :=
  decide (p.head? ≠ some '/') &&
  decide ((specResolveStack [] (splitComps p)).head? = some ['.', '.'])

/- ------------------------------------------------------------------
   C8 lemmas
   ------------------------------------------------------------------ -/

theorem splitCompsAux_wf : ∀ (l cur : List Char), '/' ∉ cur →
    ∀ c ∈ splitCompsAux l cur, c ≠ [] ∧ '/' ∉ c := by
  intro l
  induction l with
  | nil =>
    intro cur hcur c hc
    by_cases h : cur = []
    · simp [splitCompsAux, h] at hc
    · simp only [splitCompsAux, if_neg h, List.mem_singleton] at hc
      subst hc
      constructor
      · simpa using h
      · simpa using hcur
  | cons a rest ih =>
    intro cur hcur c hc
    by_cases ha : a = '/'
    · by_cases h : cur = []
      · simp only [splitCompsAux, if_pos ha, if_pos h] at hc
        exact ih [] (by simp) c hc
      · simp only [splitCompsAux, if_pos ha, if_neg h, List.mem_cons] at hc
        rcases hc with rfl | hc
        · exact ⟨by simpa using h, by simpa using hcur⟩
        · exact ih [] (by simp) c hc
    · simp only [splitCompsAux, if_neg ha] at hc
      refine ih (a :: cur) ?_ c hc
      simp only [List.mem_cons, not_or]
      exact ⟨fun h => ha h.symm, hcur⟩

theorem splitComps_wf (p : List Char) : ∀ c ∈ splitComps p, c ≠ [] ∧ '/' ∉ c :=
  splitCompsAux_wf p [] (by simp)

theorem compEndsDotDot_cons (a : Char) (c : List Char)
    (h : compEndsDotDot c = true) : compEndsDotDot (a :: c) = true := by
  simp only [compEndsDotDot, decide_eq_true_eq] at h ⊢
  rw [List.reverse_cons]
  cases hr : c.reverse with
  | nil => rw [hr] at h; simp at h
  | cons x t =>
    cases t with
    | nil => rw [hr] at h; simp at h
    | cons y t2 =>
      rw [hr] at h
      simp at h
      simp [h.1, h.2]

theorem compEndsDotDot_tail (a : Char) (c : List Char)
    (h : compEndsDotDot (a :: c) = false) : compEndsDotDot c = false := by
  cases hq : compEndsDotDot c with
  | false => rfl
  | true => rw [compEndsDotDot_cons a c hq] at h; exact absurd h (by simp)

theorem startsDotDotSlash_imp_contains (l : List Char)
    (h : startsDotDotSlash l = true) : containsDotDotSlash l = true := by
  cases l with
  | nil => simp [startsDotDotSlash] at h
  | cons a rest => simp [containsDotDotSlash, h]

theorem containsDotDotSlash_slash_cons (l : List Char) :
    containsDotDotSlash ('/' :: l) = containsDotDotSlash l := by
  simp [containsDotDotSlash, startsDotDotSlash]

theorem take3_cons (a : Char) (l : List Char) : (a :: l).take 3 = a :: l.take 2 := rfl

theorem take2_cons (a : Char) (l : List Char) : (a :: l).take 2 = a :: l.take 1 := rfl

theorem take1_cons (a : Char) (l : List Char) : (a :: l).take 1 = [a] := rfl

theorem contains_comp_append (c : List Char) :
    ∀ l : List Char, '/' ∉ c → compEndsDotDot c = false →
    (l = [] ∨ l.head? = some '/') → containsDotDotSlash l = false →
    containsDotDotSlash (c ++ l) = false := by
  induction c with
  | nil => intro l _ _ _ hcl; simpa using hcl
  | cons a c ih =>
    intro l hsl he hl hcl
    have hsl' : '/' ∉ c := fun h => hsl (List.mem_cons_of_mem a h)
    have he' : compEndsDotDot c = false := compEndsDotDot_tail a c he
    have hrec := ih l hsl' he' hl hcl
    have hstarts : startsDotDotSlash (a :: (c ++ l)) = false := by
      simp only [startsDotDotSlash, decide_eq_false_iff_not]
      intro hpat
      rw [take3_cons] at hpat
      rcases List.cons_eq_cons.mp hpat with ⟨rfl, hpat2⟩
      cases c with
      | nil =>
        rcases hl with rfl | hl
        · simp at hpat2
        · cases l with
          | nil => simp at hl
          | cons x t =>
            simp only [List.head?_cons, Option.some.injEq] at hl
            subst hl
            rw [List.nil_append, take2_cons] at hpat2
            rcases List.cons_eq_cons.mp hpat2 with ⟨h1, _⟩
            exact absurd h1 (by decide)
      | cons b c2 =>
        cases c2 with
        | nil =>
          rw [List.cons_append, List.nil_append, take2_cons] at hpat2
          rcases List.cons_eq_cons.mp hpat2 with ⟨rfl, _⟩
          simp [compEndsDotDot] at he
        | cons d c3 =>
          rw [List.cons_append, List.cons_append, take2_cons, take1_cons] at hpat2
          rcases List.cons_eq_cons.mp hpat2 with ⟨rfl, hpat3⟩
          rcases List.cons_eq_cons.mp hpat3 with ⟨rfl, _⟩
          exact hsl (by simp)
    rw [List.cons_append]
    show (startsDotDotSlash (a :: (c ++ l)) || containsDotDotSlash (c ++ l)) = false
    rw [hstarts, hrec]
    rfl

theorem buildComps_true_cons (c : List Char) (cs : List (List Char)) :
    buildComps true (c :: cs) = '/' :: (c ++ buildComps true cs) := by
  simp [buildComps]

theorem contains_buildComps (cs : List (List Char))
    (h : ∀ c ∈ cs, c ≠ [] ∧ '/' ∉ c ∧ compEndsDotDot c = false) :
    ∀ sep0, containsDotDotSlash (buildComps sep0 cs) = false := by
  induction cs with
  | nil => intro sep0; cases sep0 <;> simp [buildComps, containsDotDotSlash]
  | cons c cs ih =>
    intro sep0
    have hc := h c (by simp)
    have ih' := ih (fun x hx => h x (by simp [hx])) true
    have hl : buildComps true cs = [] ∨ (buildComps true cs).head? = some '/' := by
      cases cs with
      | nil => left; rfl
      | cons c2 cs2 => right; rw [buildComps_true_cons]; rfl
    have hmain := contains_comp_append c (buildComps true cs) hc.2.1 hc.2.2 hl ih'
    cases sep0 with
    | false => simpa [buildComps] using hmain
    | true =>
      rw [buildComps_true_cons, containsDotDotSlash_slash_cons]
      exact hmain

theorem processComps_subset (isAbs : Bool) :
    ∀ (cs acc : List (List Char)), (∀ c ∈ cs, c ≠ ['.', '.']) →
    ∀ x ∈ processComps isAbs acc cs, x ∈ acc ∨ x ∈ cs := by
  intro cs
  induction cs with
  | nil =>
    intro acc _ x hx
    simp only [processComps] at hx
    left
    exact List.mem_reverse.mp hx
  | cons c cs ih =>
    intro acc hc x hx
    have hcne : c ≠ ['.', '.'] := hc c (by simp)
    have hc' : ∀ y ∈ cs, y ≠ ['.', '.'] := fun y hy => hc y (by simp [hy])
    by_cases hdot : c = ['.']
    · simp only [processComps, if_pos hdot] at hx
      rcases ih acc hc' x hx with h | h
      · exact Or.inl h
      · exact Or.inr (by simp [h])
    · simp only [processComps, if_neg hdot, if_neg hcne] at hx
      rcases ih (c :: acc) hc' x hx with h | h
      · rcases List.mem_cons.mp h with rfl | h2
        · exact Or.inr (by simp)
        · exact Or.inl h2
      · exact Or.inr (by simp [h])

theorem endsDotDot_imp_compEnds (l : List Char) (h : endsDotDot l = true) :
    compEndsDotDot l = true := by
  unfold endsDotDot at h
  split at h
  · next rest heq =>
    simp [compEndsDotDot, heq]
  · exact absurd h (by simp)

theorem compEnds_concat (X c : List Char) (hc : c ≠ [])
    (hce : compEndsDotDot c = false) (hX : X = [] ∨ X.getLast? = some '/') :
    compEndsDotDot (X ++ c) = false := by
  simp only [compEndsDotDot, decide_eq_false_iff_not] at hce ⊢
  rw [List.reverse_append]
  cases hr : c.reverse with
  | nil => exact absurd (List.reverse_eq_nil_iff.mp hr) hc
  | cons x t =>
    cases t with
    | nil =>
      intro hpat
      rw [List.cons_append, List.nil_append, take2_cons] at hpat
      rcases List.cons_eq_cons.mp hpat with ⟨rfl, hpat2⟩
      rcases hX with rfl | hX
      · simp at hpat2
      · rw [← List.head?_reverse] at hX
        cases hv : X.reverse with
        | nil => rw [hv] at hX; simp at hX
        | cons y ys =>
          rw [hv] at hX hpat2
          simp only [List.head?_cons, Option.some.injEq] at hX
          subst hX
          rw [take1_cons] at hpat2
          rcases List.cons_eq_cons.mp hpat2 with ⟨h1, _⟩
          exact absurd h1 (by decide)
    | cons y t2 =>
      intro hpat
      rw [List.cons_append, List.cons_append, take2_cons, take1_cons] at hpat
      rcases List.cons_eq_cons.mp hpat with ⟨rfl, hpat2⟩
      rcases List.cons_eq_cons.mp hpat2 with ⟨rfl, _⟩
      exact hce (by rw [hr, take2_cons, take1_cons])

theorem buildComps_append_last (init : List (List Char)) :
    ∀ (sep0 : Bool) (cl : List Char),
    buildComps sep0 (init ++ [cl]) =
      buildComps sep0 init ++ (if sep0 = true ∨ init ≠ [] then ['/'] else []) ++ cl := by
  induction init with
  | nil =>
    intro sep0 cl
    cases sep0 <;> simp [buildComps]
  | cons i init ih =>
    intro sep0 cl
    cases sep0 <;> simp [buildComps, ih true cl, List.append_assoc]

/-- Part 1 of the amended C8: if no component of the path ends in the two
characters `..` (in particular the path has no `..` component), then
`is_path_traversal` reports false. -/
theorem is_path_traversal_false_of_no_comp_ends_dotdot (p : List Char)
    (h : ∀ c ∈ splitComps p, compEndsDotDot c = false) :
    is_path_traversal p = false := by
  have hwf := splitComps_wf p
  have hnodd : ∀ c ∈ splitComps p, c ≠ ['.', '.'] := by
    intro c hc hcontra
    subst hcontra
    have := h _ hc
    rw [show compEndsDotDot ['.', '.'] = true from by decide] at this
    exact absurd this (by simp)
  have hsub : ∀ x ∈ processComps (decide (p.head? = some '/')) [] (splitComps p),
      x ∈ splitComps p := by
    intro x hx
    rcases processComps_subset _ (splitComps p) [] hnodd x hx with h0 | h0
    · simp at h0
    · exact h0
  have hconds : ∀ c ∈ processComps (decide (p.head? = some '/')) [] (splitComps p),
      c ≠ [] ∧ '/' ∉ c ∧ compEndsDotDot c = false :=
    fun c hc => ⟨(hwf c (hsub c hc)).1, (hwf c (hsub c hc)).2, h c (hsub c hc)⟩
  have hres : resolve_dot_dot p =
      (if (decide (p.head? = some '/') : Bool) then ['/'] else []) ++
        buildComps (decide (p.head? = some '/'))
          (processComps (decide (p.head? = some '/')) [] (splitComps p)) := rfl
  have hcontains : containsDotDotSlash (resolve_dot_dot p) = false := by
    rw [hres]
    cases hab : (decide (p.head? = some '/') : Bool)
    · rw [hab] at hconds
      simpa using contains_buildComps _ hconds false
    · rw [hab] at hconds
      simp only [if_pos]
      rw [List.cons_append, List.nil_append, containsDotDotSlash_slash_cons]
      exact contains_buildComps _ hconds true
  have hstarts : startsDotDotSlash (resolve_dot_dot p) = false := by
    cases hs : startsDotDotSlash (resolve_dot_dot p)
    · rfl
    · rw [startsDotDotSlash_imp_contains _ hs] at hcontains
      exact absurd hcontains (by simp)
  have hends : endsDotDot (resolve_dot_dot p) = false := by
    cases he : endsDotDot (resolve_dot_dot p)
    · rfl
    · exfalso
      have hce := endsDotDot_imp_compEnds _ he
      have hfalse : compEndsDotDot (resolve_dot_dot p) = false := by
        rcases List.eq_nil_or_concat
          (processComps (decide (p.head? = some '/')) [] (splitComps p)) with
          hnil | ⟨init, cl, hdecomp⟩
        · rw [hres, hnil]
          cases hab : (decide (p.head? = some '/') : Bool) <;> simp [buildComps] <;> decide
        · rw [List.concat_eq_append] at hdecomp
          have hclmem : cl ∈ processComps (decide (p.head? = some '/')) [] (splitComps p) := by
            rw [hdecomp]; simp
          rw [hres, hdecomp, buildComps_append_last init _ cl,
            ← List.append_assoc, ← List.append_assoc]
          apply compEnds_concat _ cl (hconds cl hclmem).1 (hconds cl hclmem).2.2
          by_cases hcond : ((decide (p.head? = some '/') : Bool) = true ∨ init ≠ [])
          · right
            rw [if_pos hcond]
            exact List.getLast?_concat _
          · left
            push_neg at hcond
            have hd : (decide (p.head? = some '/') : Bool) = false := by
              cases hq : (decide (p.head? = some '/') : Bool)
              · rfl
              · exact absurd hq hcond.1
            rw [hcond.2, hd]
            simp [buildComps]
      rw [hfalse] at hce
      exact absurd hce (by simp)
  have hlast : (decide (p.head? = some '/') &&
      decide ((resolve_dot_dot p).head? ≠ some '/')) = false := by
    cases hab : (decide (p.head? = some '/') : Bool)
    · simp
    · have : (resolve_dot_dot p).head? = some '/' := by
        rw [hres, hab]
        simp
      simp [this]
  show (startsDotDotSlash (resolve_dot_dot p) || containsDotDotSlash (resolve_dot_dot p) ||
    endsDotDot (resolve_dot_dot p) ||
    (decide (p.head? = some '/') && decide ((resolve_dot_dot p).head? ≠ some '/'))) = false
  rw [hstarts, hcontains, hends, hlast]
  rfl

theorem processComps_keep_head : ∀ (cs acc : List (List Char)),
    (∀ c ∈ cs, c ≠ ['.', '.']) → acc ≠ [] → acc.getLast? = some ['.', '.'] →
    (processComps false acc cs).head? = some ['.', '.'] := by
  intro cs
  induction cs with
  | nil =>
    intro acc _ _ hlast
    simp only [processComps]
    rw [List.head?_reverse]
    exact hlast
  | cons c cs ih =>
    intro acc hc hne hlast
    have hcne : c ≠ ['.', '.'] := hc c (by simp)
    have hc' : ∀ y ∈ cs, y ≠ ['.', '.'] := fun y hy => hc y (by simp [hy])
    by_cases hdot : c = ['.']
    · simp only [processComps, if_pos hdot]
      exact ih acc hc' hne hlast
    · simp only [processComps, if_neg hdot, if_neg hcne]
      apply ih (c :: acc) hc' (by simp) ?_
      cases acc with
      | nil => exact absurd rfl hne
      | cons a as => rw [List.getLast?_cons_cons]; exact hlast

/-- Part 2 of the amended C8: a relative path whose first component is `..`
and which has no further `..` component is flagged as traversal. -/
theorem is_path_traversal_true_of_leading_dotdot (p : List Char)
    (habs : p.head? ≠ some '/') (hhead : (splitComps p).head? = some ['.', '.'])
    (hrest : ∀ c ∈ (splitComps p).tail, c ≠ ['.', '.']) :
    is_path_traversal p = true := by
  obtain ⟨rest, hsplit⟩ : ∃ rest, splitComps p = ['.', '.'] :: rest := by
    cases hs : splitComps p with
    | nil => rw [hs] at hhead; simp at hhead
    | cons c t =>
      rw [hs] at hhead
      simp only [List.head?_cons, Option.some.injEq] at hhead
      exact ⟨t, by rw [hhead]⟩
  have hrest' : ∀ c ∈ rest, c ≠ ['.', '.'] := by
    intro c hc
    apply hrest
    rw [hsplit]
    simpa using hc
  have habs' : (decide (p.head? = some '/') : Bool) = false := by
    simpa using habs
  have hc' : (processComps false [] (splitComps p)).head? = some ['.', '.'] := by
    rw [hsplit]
    have hstep : processComps false [] (['.', '.'] :: rest) =
        processComps false [['.', '.']] rest := by
      simp [processComps]
    rw [hstep]
    exact processComps_keep_head rest [['.', '.']] hrest' (by simp) (by simp)
  obtain ⟨t, hct⟩ : ∃ t, processComps false [] (splitComps p) = ['.', '.'] :: t := by
    cases hs : processComps false [] (splitComps p) with
    | nil => rw [hs] at hc'; simp at hc'
    | cons c u =>
      rw [hs] at hc'
      simp only [List.head?_cons, Option.some.injEq] at hc'
      exact ⟨u, by rw [hc']⟩
  have hres : resolve_dot_dot p = ['.', '.'] ++ buildComps true t := by
    show (if (decide (p.head? = some '/') : Bool) then ['/'] else []) ++
      buildComps (decide (p.head? = some '/'))
        (processComps (decide (p.head? = some '/')) [] (splitComps p)) = _
    rw [habs', hct]
    simp [buildComps]
  cases t with
  | nil =>
    have hend : endsDotDot (resolve_dot_dot p) = true := by
      rw [hres]
      decide
    show (startsDotDotSlash (resolve_dot_dot p) || containsDotDotSlash (resolve_dot_dot p) ||
      endsDotDot (resolve_dot_dot p) ||
      (decide (p.head? = some '/') && decide ((resolve_dot_dot p).head? ≠ some '/'))) = true
    rw [hend]
    simp
  | cons c2 t2 =>
    have hstart : startsDotDotSlash (resolve_dot_dot p) = true := by
      rw [hres, buildComps_true_cons]
      simp [startsDotDotSlash]
    show (startsDotDotSlash (resolve_dot_dot p) || containsDotDotSlash (resolve_dot_dot p) ||
      endsDotDot (resolve_dot_dot p) ||
      (decide (p.head? = some '/') && decide ((resolve_dot_dot p).head? ≠ some '/'))) = true
    rw [hstart]
    simp

/-- C8 (amended): `is_traversal` is false for every path in which no
component ends with the two characters `..` (which covers every `..`-free
path except those with a component like `a..` followed by a further
component), and true for every relative path whose leading component is
`..` with no further `..` component.  (The original unrestricted claim is
refuted by `c8_counterexample`.) -/
theorem c8_is_traversal_amended :
    (∀ p : List Char, (∀ c ∈ splitComps p, compEndsDotDot c = false) →
      is_path_traversal p = false) ∧
    (∀ p : List Char, p.head? ≠ some '/' →
      (splitComps p).head? = some ['.', '.'] →
      (∀ c ∈ (splitComps p).tail, c ≠ ['.', '.']) →
      is_path_traversal p = true) :=
  ⟨is_path_traversal_false_of_no_comp_ends_dotdot, is_path_traversal_true_of_leading_dotdot⟩

/-- Witness for the amended C8 at `"docs/a.txt"` (no component ends `..`)
and `"../x"` (relative, leading `..`). -/
theorem c8_is_traversal_amended_witness :
    ((∀ c ∈ splitComps "docs/a.txt".toList, compEndsDotDot c = false) ∧
      is_path_traversal "docs/a.txt".toList = false) ∧
    (("../x".toList.head? ≠ some '/') ∧
      (splitComps "../x".toList).head? = some ['.', '.'] ∧
      (∀ c ∈ (splitComps "../x".toList).tail, c ≠ ['.', '.']) ∧
      is_path_traversal "../x".toList = true) :=
  ⟨⟨by decide, c8_is_traversal_amended.1 _ (by decide)⟩,
   ⟨by decide, by decide, by decide,
     c8_is_traversal_amended.2 _ (by decide) (by decide) (by decide)⟩⟩

/-- C8 counterexample.  Both directions of the original claim fail on the
code:
* `"a../x"` contains no `..` component, yet `is_path_traversal` flags it,
  because after resolution the string `a../x` contains the substring `../`
  that `strstr` searches for;
* `"../../x"` climbs two levels above the root, yet `is_path_traversal`
  accepts it, because the stack pass pops the previously kept `..` when it
  sees the second `..`, leaving the harmless `x`. -/
theorem c8_counterexample :
    (hasDotDotComponent "a../x".toList = false ∧
      is_path_traversal "a../x".toList = true) ∧
    (specClimbsAboveRoot "../../x".toList = true ∧
      is_path_traversal "../../x".toList = false) :=
  ⟨⟨by decide, by decide⟩, ⟨by decide, by decide⟩⟩

/- ========================================================================
   Part 4 — VFS node tree (src/filesystem/vfs.c)

   The C tree is pointer-based: every node holds raw `parent`, `children`
   (first child) and `next` (next sibling) pointers.  The embedding is a
   heap: nodes are records addressed by numeric ids in an association
   list, pointers are `Option Nat`, and every C pointer write is a
   separate heap update, so aliasing (e.g. `add_child(parent, parent)`
   during a degenerate move) behaves exactly as in C.  Loops that walk
   sibling chains carry explicit fuel; the states evaluated below have
   chains far shorter than the fuel, so the cut-off never fires.
   ======================================================================== -/

/-- `vfs_node_type_t`: `VFS_FILE` or `VFS_DIR`. -/
inductive VType where
  | file
  | dir
deriving DecidableEq

/-- `vfs_node_t`.  `data = []` models a NULL content pointer. -/
structure CNode where
  name : List Char
  ntype : VType
  data : List Nat
  size : Nat
  mtime : Nat
  ctime : Nat
  parent : Option Nat
  children : Option Nat
  next : Option Nat
deriving DecidableEq

/-- `vfs_t` plus the heap of live nodes. -/
structure VfsState where
  nodes : List (Nat × CNode)
  nextId : Nat
  rootId : Nat
  total_nodes : Nat
  total_size : Nat
deriving DecidableEq

/-- Dereference a node id. -/
def getN (s : VfsState) (i : Nat) : Option CNode := List.lookup i s.nodes

/-- Update the node at id `i` in place. -/
def setN (s : VfsState) (i : Nat) (f : CNode → CNode) : VfsState :=
  { s with nodes := s.nodes.map fun p => if p.1 = i then (p.1, f p.2) else p }

/-- `safe_malloc` of a node: a fresh id. -/
def allocN (s : VfsState) (c : CNode) : VfsState × Nat :=
  ({ s with nodes := s.nodes ++ [(s.nextId, c)], nextId := s.nextId + 1 }, s.nextId)

/-- Free the listed nodes. -/
def removeN (s : VfsState) (ids : List Nat) : VfsState :=
  { s with nodes := s.nodes.filter fun p => decide (p.1 ∉ ids) }

/-- `create_node`: fresh node, no data, size 0, both timestamps `now`,
all pointers NULL. -/
def create_node (name : List Char) (t : VType) (now : Nat) : CNode :=
  ⟨name, t, [], 0, now, now, none, none, none⟩

/-- `vfs_init`: root directory `"/"` at id 0, counters 1 and 0. -/
def vfs_init (now : Nat) : VfsState :=
  { nodes := [(0, create_node ['/'] .dir now)], nextId := 1, rootId := 0,
    total_nodes := 1, total_size := 0 }

/-- The sibling-chain walk of `find_child`. -/
def findChildGo (s : VfsState) : Nat → Option Nat → List Char → Option Nat
  | 0, _, _ => none
  | _ + 1, none, _ => none
  | fuel + 1, some cid, name =>
    match getN s cid with
    | none => none
    | some c => if c.name = name then some cid else findChildGo s fuel c.next name

/-- `find_child`: NULL or non-directory parent gives NULL, otherwise scan
the children linearly for a name match. -/
def find_child (s : VfsState) (pid : Nat) (name : List Char) : Option Nat :=
  match getN s pid with
  | none => none
  | some p =>
    if p.ntype ≠ .dir then none
    else findChildGo s (s.nodes.length + 1) p.children name

/-- `add_child`: refuse a non-directory parent or a duplicate name, then
`child->parent = parent; child->next = parent->children;
parent->children = child; parent->size++; parent->mtime = now`, as five
sequential pointer writes (faithful even when `parent == child`). -/
def add_child (s : VfsState) (pid cid : Nat) (now : Nat) : VfsState × Bool :=
  match getN s pid with
  | none => (s, false)
  | some p =>
    if p.ntype ≠ .dir then (s, false)
    else
      match getN s cid with
      | none => (s, false)
      | some c =>
        if (find_child s pid c.name).isSome then (s, false)
        else
          let s1 := setN s cid fun n => { n with parent := some pid }
          let s2 := setN s1 cid fun n => { n with next := (getN s1 pid).bind (·.children) }
          let s3 := setN s2 pid fun n => { n with children := some cid }
          let s4 := setN s3 pid fun n => { n with size := n.size + 1 }
          let s5 := setN s4 pid fun n => { n with mtime := now }
          (s5, true)

/-- The predecessor search in `remove_child`'s unlink loop. -/
def findPrevGo (s : VfsState) : Nat → Option Nat → Nat → Option Nat
  | 0, _, _ => none
  | _ + 1, none, _ => none
  | fuel + 1, some curId, cid =>
    match getN s curId with
    | none => none
    | some cur =>
      if cur.next = some cid then some curId else findPrevGo s fuel cur.next cid

/-- The common tail of `remove_child`: clear the child's `next` and
`parent`, decrement the parent's size, stamp its mtime. -/
def remove_child_finish (s : VfsState) (pid cid : Nat) (now : Nat) : VfsState × Bool :=
  let s1 := setN s cid fun n => { n with next := none }
  let s2 := setN s1 cid fun n => { n with parent := none }
  let s3 := setN s2 pid fun n => { n with size := n.size - 1 }
  let s4 := setN s3 pid fun n => { n with mtime := now }
  (s4, true)

/-- `remove_child`: unlink the child from the sibling list (head case or
via the predecessor), then the common tail. -/
def remove_child (s : VfsState) (pid cid : Nat) (now : Nat) : VfsState × Bool :=
  match getN s pid with
  | none => (s, false)
  | some p =>
    if p.ntype ≠ .dir then (s, false)
    else
      match getN s cid with
      | none => (s, false)
      | some c =>
        if p.children = some cid then
          remove_child_finish (setN s pid fun n => { n with children := c.next }) pid cid now
        else
          match findPrevGo s (s.nodes.length + 1) p.children cid with
          | none => (s, false)
          | some prevId =>
            remove_child_finish (setN s prevId fun n => { n with next := c.next })
              pid cid now

/-- `split_path`: normalize (again — the caller already normalized once)
and tokenize on `/`. -/
def split_path (p : List Char) : Option (List (List Char)) :=
  (normalize_path p).map splitComps

/-- The component walk of `resolve_path`.  On a missing component it
either auto-creates a directory — only when `create_dirs` is set **and the
component is not the last one** (`i < count - 1`) — or fails, keeping
whatever intermediate directories were already created.  The result of
`add_child` is ignored, exactly as in the C code. -/
def resolveGo (now : Nat) (createDirs : Bool) :
    VfsState → Nat → List (List Char) → VfsState × Option Nat
  | s, cur, [] => (s, some cur)
  | s, cur, comp :: rest =>
    if comp = [] then resolveGo now createDirs s cur rest
    else
      match find_child s cur comp with
      | some child => resolveGo now createDirs s child rest
      | none =>
        if createDirs ∧ rest ≠ [] then
          let (s1, nid) := allocN s (create_node comp .dir now)
          let (s2, _) := add_child s1 cur nid now
          resolveGo now createDirs s2 nid rest
        else (s, none)

/-- `resolve_path`. -/
def resolve_path (s : VfsState) (p : List Char) (createDirs : Bool) (now : Nat) :
    VfsState × Option Nat :=
  match normalize_path p with
  | none => (s, none)
  | some norm =>
    match split_path norm with
    | none => (s, none)
    | some comps => resolveGo now createDirs s s.rootId comps

/-- `vfs_find_node`: traversal check, then a non-creating resolve. -/
def vfs_find_node (s : VfsState) (p : List Char) (now : Nat) : Option Nat :=
  if is_path_traversal p then none
  else (resolve_path s p false now).2

/-- `vfs_create_file`: traversal check; split into dirname/basename;
resolve the parent with auto-creation; refuse a non-directory parent or an
existing leaf; build the file node (copying `size` content bytes when the
data pointer is non-NULL and `size > 0`); attach it and bump the
counters. -/
def vfs_create_file (s : VfsState) (p : List Char) (data : List Nat) (size : Nat)
    (now : Nat) : VfsState × Option Nat :=
  if is_path_traversal p then (s, none)
  else
    let dirPath := path_get_dirname p
    let fname := path_get_basename p
    let (s1, parentOpt) := resolve_path s dirPath true now
    match parentOpt with
    | none => (s1, none)
    | some pid =>
      match getN s1 pid with
      | none => (s1, none)
      | some pnode =>
        if pnode.ntype ≠ .dir then (s1, none)
        else if (find_child s1 pid fname).isSome then (s1, none)
        else
          let fileNode :=
            if 0 < size ∧ data ≠ [] then
              { create_node fname .file now with data := data.take size, size := size }
            else create_node fname .file now
          let (s2, fid) := allocN s1 fileNode
          let (s3, ok) := add_child s2 pid fid now
          if ok then
            ({ s3 with total_nodes := s3.total_nodes + 1,
                       total_size := s3.total_size + size }, some fid)
          else (removeN s3 [fid], none)

/-- `vfs_create_dir`: traversal check; fail if anything already exists at
the path; resolve the parent with auto-creation; attach a new directory
(`add_child` performs the duplicate check) and bump the node counter. -/
def vfs_create_dir (s : VfsState) (p : List Char) (now : Nat) : VfsState × Option Nat :=
  if is_path_traversal p then (s, none)
  else
    let (s0, existing) := resolve_path s p false now
    match existing with
    | some _ => (s0, none)
    | none =>
      let dirPath := path_get_dirname p
      let dname := path_get_basename p
      let (s1, parentOpt) := resolve_path s0 dirPath true now
      match parentOpt with
      | none => (s1, none)
      | some pid =>
        match getN s1 pid with
        | none => (s1, none)
        | some pnode =>
          if pnode.ntype ≠ .dir then (s1, none)
          else
            let (s2, did) := allocN s1 (create_node dname .dir now)
            let (s3, ok) := add_child s2 pid did now
            if ok then ({ s3 with total_nodes := s3.total_nodes + 1 }, some did)
            else (removeN s3 [did], none)

/-- Collect a sibling chain (first child plus `next` links). -/
def siblingChainGo (s : VfsState) : Nat → Option Nat → List Nat
  | 0, _ => []
  | _ + 1, none => []
  | fuel + 1, some cid =>
    match getN s cid with
    | none => []
    | some c => cid :: siblingChainGo s fuel c.next

/-- The ids freed by `destroy_node`, via a worklist. -/
def subtreeIds (s : VfsState) : Nat → List Nat → List Nat
  | 0, _ => []
  | _ + 1, [] => []
  | fuel + 1, i :: ws =>
    match getN s i with
    | none => subtreeIds s fuel ws
    | some c =>
      i :: subtreeIds s fuel (siblingChainGo s (s.nodes.length + 1) c.children ++ ws)

/-- `destroy_node`: recursively free the node and its subtree (the secure
wipe of file contents has no observable effect in the heap model). -/
def destroy_node (s : VfsState) (i : Nat) : VfsState :=
  removeN s (subtreeIds s (s.nodes.length + 1) [i])

/-- `vfs_delete_node`: traversal check; the literal path `"/"` and any
node without a parent are refused with a permission error; otherwise
unlink, adjust counters (file bytes only for the deleted node itself), and
destroy the subtree. -/
def vfs_delete_node (s : VfsState) (p : List Char) (now : Nat) : VfsState × Bool :=
  if is_path_traversal p then (s, false)
  else if p = ['/'] then (s, false)
  else
    let (s0, nodeOpt) := resolve_path s p false now
    match nodeOpt with
    | none => (s0, false)
    | some nid =>
      match getN s0 nid with
      | none => (s0, false)
      | some node =>
        match node.parent with
        | none => (s0, false)
        | some pid =>
          let (s1, _) := remove_child s0 pid nid now
          let s2 := if node.ntype = .file
                    then { s1 with total_size := s1.total_size - node.size }
                    else s1
          let s3 := { s2 with total_nodes := s2.total_nodes - 1 }
          (destroy_node s3 nid, true)

/-- `vfs_rename_node`: traversal checks; resolve the node; take the new
leaf name from `new_path`'s basename; when the node has a parent refuse a
sibling name collision — **no root check of any kind** — then overwrite
the name and stamp mtime. -/
def vfs_rename_node (s : VfsState) (oldPath newPath : List Char) (now : Nat) :
    VfsState × Bool :=
  if is_path_traversal oldPath ∨ is_path_traversal newPath then (s, false)
  else
    let (s0, nodeOpt) := resolve_path s oldPath false now
    match nodeOpt with
    | none => (s0, false)
    | some nid =>
      let newName := path_get_basename newPath
      let doRename := fun (st : VfsState) =>
        (setN (setN st nid fun n => { n with name := newName })
          nid fun n => { n with mtime := now }, true)
      match (getN s0 nid).bind (·.parent) with
      | some pid =>
        if (find_child s0 pid newName).isSome then (s0, false)
        else doRename s0
      | none => doRename s0

/-- `vfs_move_node`: traversal checks; resolve the source; resolve the
destination parent with auto-creation (partial mutation persists if that
fails); refuse a destination name collision; detach the source from its
parent if it has one; rename it to the destination basename; reattach with
`add_child` (whose failure leaves the node detached); stamp mtime. -/
def vfs_move_node (s : VfsState) (srcPath dstPath : List Char) (now : Nat) :
    VfsState × Bool :=
  if is_path_traversal srcPath ∨ is_path_traversal dstPath then (s, false)
  else
    let (s0, srcOpt) := resolve_path s srcPath false now
    match srcOpt with
    | none => (s0, false)
    | some sid =>
      let dstDir := path_get_dirname dstPath
      let dstName := path_get_basename dstPath
      let (s1, dstPOpt) := resolve_path s0 dstDir true now
      match dstPOpt with
      | none => (s1, false)
      | some pid =>
        match getN s1 pid with
        | none => (s1, false)
        | some pnode =>
          if pnode.ntype ≠ .dir then (s1, false)
          else if (find_child s1 pid dstName).isSome then (s1, false)
          else
            let s2 :=
              match (getN s1 sid).bind (·.parent) with
              | some oldPid => (remove_child s1 oldPid sid now).1
              | none => s1
            let s3 := setN s2 sid fun n => { n with name := dstName }
            let (s4, ok) := add_child s3 pid sid now
            if ok then (setN s4 sid fun n => { n with mtime := now }, true)
            else (s4, false)

/- ------------------------------------------------------------------
   Claim evaluations on the node tree
   ------------------------------------------------------------------ -/

/-- C1 evidence: on a fresh VFS, `create_file("/a/b/c.txt", data, 1)`
**fails** instead of succeeding.  `resolve_path(dir_path, create=true)`
auto-creates only components strictly before the last one of the parent
path (`i < count - 1`), so the immediate parent `/a/b` is never created:
the call creates `/a`, then fails with parent-not-found, and the file does
not exist afterwards — contradicting the claim (and the spec's testable
property) that the call succeeds and creates `/a`, `/a/b` and the file.
The leftover `/a` also contradicts "resolution never partially mutates the
tree on failure". -/
theorem c1_create_file_fails_on_missing_parent_chain :
    (vfs_create_file (vfs_init 0) "/a/b/c.txt".toList [120] 1 0).2 = none ∧
    (find_child (vfs_create_file (vfs_init 0) "/a/b/c.txt".toList [120] 1 0).1
      0 "a".toList).isSome = true ∧
    (resolve_path (vfs_create_file (vfs_init 0) "/a/b/c.txt".toList [120] 1 0).1
      "/a/b/c.txt".toList false 0).2 = none ∧
    (resolve_path (vfs_create_file (vfs_init 0) "/a/b/c.txt".toList [120] 1 0).1
      "/a/b".toList false 0).2 = none := by
  refine ⟨by decide, by decide, by decide, by decide⟩

/-- C4 evidence: `delete("/")` is indeed refused with the tree unchanged,
but `rename("/", "/x")` **succeeds** and renames the root from `"/"` to
`"x"`: `vfs_rename_node` has no root guard — the sibling-collision check
is simply skipped when `parent == NULL` and the name is overwritten —
contradicting the claim that the root can never be renamed. -/
theorem c4_root_rename_unprotected :
    vfs_delete_node (vfs_init 0) "/".toList 0 = (vfs_init 0, false) ∧
    (vfs_rename_node (vfs_init 0) "/".toList "/x".toList 0).2 = true ∧
    ((getN (vfs_rename_node (vfs_init 0) "/".toList "/x".toList 0).1 0).map
      (·.name)) = some "x".toList := by
  refine ⟨by decide, by decide, by decide⟩

/-- C5 evidence: with a single directory `/a`, `move("/a", "/a/b")` —
whose destination parent is the moved node itself — **returns success**
and leaves node 1 as its own parent and its own only child, detached from
the root (the root's child list becomes empty): the move created a cycle
and disconnected the tree, contradicting the claimed invariant. -/
theorem c5_move_creates_cycle :
    (vfs_move_node (vfs_create_dir (vfs_init 0) "/a".toList 0).1
      "/a".toList "/a/b".toList 0).2 = true ∧
    ((getN (vfs_move_node (vfs_create_dir (vfs_init 0) "/a".toList 0).1
      "/a".toList "/a/b".toList 0).1 1).map (·.parent)) = some (some 1) ∧
    ((getN (vfs_move_node (vfs_create_dir (vfs_init 0) "/a".toList 0).1
      "/a".toList "/a/b".toList 0).1 1).map (·.children)) = some (some 1) ∧
    ((getN (vfs_move_node (vfs_create_dir (vfs_init 0) "/a".toList 0).1
      "/a".toList "/a/b".toList 0).1 0).map (·.children)) = some none := by
  refine ⟨by decide, by decide, by decide, by decide⟩

/-- C6 evidence: with a single file `/f`, `move("/f", "/x/y/g")` fails
(the destination parent `/x/y` cannot be fully resolved), yet the
auto-creation pass has already attached a new directory `/x` under the
root before the failure: the tree is *not* exactly as it was before the
call, contradicting the no-partial-mutation claim.  (`/f` itself is still
in place.) -/
theorem c6_failed_move_leaves_partial_mutation :
    (find_child (vfs_create_file (vfs_init 0) "/f".toList [104] 1 0).1
      0 "x".toList) = none ∧
    (vfs_move_node (vfs_create_file (vfs_init 0) "/f".toList [104] 1 0).1
      "/f".toList "/x/y/g".toList 0).2 = false ∧
    (find_child (vfs_move_node (vfs_create_file (vfs_init 0) "/f".toList [104] 1 0).1
      "/f".toList "/x/y/g".toList 0).1 0 "x".toList).isSome = true ∧
    (find_child (vfs_move_node (vfs_create_file (vfs_init 0) "/f".toList [104] 1 0).1
      "/f".toList "/x/y/g".toList 0).1 0 "f".toList) = some 1 := by
  refine ⟨by decide, by decide, by decide, by decide⟩

end YunFS
